import Mathlib

/-!
Verification of the WhatsApp chat-dashboard core: a shallow embedding of
the transcript parser (`services/parser.py`) and of the analytics engine
(`services/analyzer.py`, `services/analyzer_extended.py`), together with
theorems settling the specification claims.

Python strings are modelled as `List Char` (Python `str` is a sequence of
Unicode code points); `datetime` values as a record of calendar fields;
machine arithmetic does not occur (all quantities are small integers).
-/

/-! ## Python string primitives (modelled on `List Char`) -/

/-- Whitespace recognised by Python's `str.strip` / `str.split` (the ASCII
whitespace characters; the inputs relevant here contain no exotic Unicode
whitespace). -/
def pyIsSpace (c : Char) : Bool :=
  c = ' ' || c = '\t' || c = '\n' || c = '\r' || c = '\x0b' || c = '\x0c'

/-- Python `str.strip()`: drop leading and trailing whitespace. -/
def pyStrip (l : List Char) : List Char :=
  ((l.dropWhile pyIsSpace).reverse.dropWhile pyIsSpace).reverse

/-- Python `str.lower()` restricted to ASCII (all strings compared in the
parser are ASCII apart from emoji, which `lower` leaves unchanged). -/
def toLowerL (l : List Char) : List Char :=
  l.map Char.toLower

/-- Does `l` start with `pat`? -/
def startsWithL : List Char → List Char → Bool
  | [], _ => true
  | _ :: _, [] => false
  | p :: ps, c :: cs => p = c && startsWithL ps cs

/-- Python substring containment `pat in hay` (empty pattern is contained
in every string). -/
def containsSubL (pat : List Char) : List Char → Bool
  | [] => pat.isEmpty
  | c :: t => startsWithL pat (c :: t) || containsSubL pat t

theorem dropWhile_len_le (p : Char → Bool) (l : List Char) :
    (l.dropWhile p).length ≤ l.length := by
  induction l with
  | nil => simp
  | cons c t ih =>
    simp only [List.dropWhile]
    cases p c <;> simp <;> omega

/-- Helper for `pySplitWS`: `acc` holds the reversed current token. -/
def pySplitWSAux : List Char → List Char → List (List Char)
  | acc, [] => (match acc with | [] => [] | _ :: _ => [acc.reverse])
  | acc, c :: t =>
    if pyIsSpace c then
      (match acc with
        | [] => pySplitWSAux [] t
        | _ :: _ => acc.reverse :: pySplitWSAux [] t)
    else pySplitWSAux (c :: acc) t

/-- Python `str.split()` with no separator: the maximal non-whitespace
runs, in order (no empty tokens). -/
def pySplitWS (l : List Char) : List (List Char) :=
  pySplitWSAux [] l

/-- Python `str.split('\n')`: split at every newline, keeping empty
pieces. -/
def splitOnNl : List Char → List (List Char)
  | [] => [[]]
  | c :: t =>
    if c = '\n' then [] :: splitOnNl t
    else
      match splitOnNl t with
      | h :: r => (c :: h) :: r
      | [] => [[c]]

/-- Python `str.replace(pat, repl)` for a non-empty `pat`: replace all
non-overlapping occurrences, scanning left to right. -/
def pyReplace (pat repl : List Char) : List Char → List Char
  | [] => []
  | c :: t =>
    if h : startsWithL pat (c :: t) ∧ pat ≠ [] then
      repl ++ pyReplace pat repl ((c :: t).drop pat.length)
    else c :: pyReplace pat repl t
termination_by l => l.length
decreasing_by
  · have hp : 1 ≤ pat.length := by
      cases hpat : pat with
      | nil => exact absurd hpat h.2
      | cons a as => simp
    simp only [List.length_drop, List.length_cons]
    omega
  · simp only [List.length_cons]; omega

/-! ## Python `datetime` model -/

/-- A `datetime.datetime` value (microseconds are always zero in this
code base, since every timestamp comes from `strptime` without `%f`). -/
structure PyDateTime where
  year : Nat
  month : Nat
  day : Nat
  hour : Nat
  minute : Nat
  second : Nat
deriving DecidableEq

/-- Injective key realising the lexicographic `datetime` comparison for
calendar-valid field values (month ≤ 12 < 13, day ≤ 31 < 32, …). -/
def dtKey (t : PyDateTime) : Nat :=
  ((((t.year * 13 + t.month) * 32 + t.day) * 24 + t.hour) * 60 + t.minute) * 60
    + t.second

/-- Python `datetime` strict order. -/
def dtLt (a b : PyDateTime) : Bool := dtKey a < dtKey b

/-- Python `min` over a list of datetimes (`None`-free; empty list has no
minimum — the call sites guard with `if date_range else None`). -/
def pyMinD : List PyDateTime → Option PyDateTime
  | [] => none
  | x :: xs => some (xs.foldl (fun cur y => if dtLt y cur then y else cur) x)

/-- Python `max` over a list of datetimes. -/
def pyMaxD : List PyDateTime → Option PyDateTime
  | [] => none
  | x :: xs => some (xs.foldl (fun cur y => if dtLt cur y then y else cur) x)

/-! ## Regex machinery

The three date patterns of `WhatsAppParser.date_patterns` and the eleven
`strptime` formats of `_parse_timestamp` are fixed regular expressions;
each is embedded as a backtracking matcher that returns the list of
possible remainders (respectively parsed values with remainders) in the
engine's preference order: greedy quantifiers yield longer consumptions
first, alternations are tried left to right, and sequencing explores
depth-first.  The head of the final list is therefore exactly the match
Python's `re` engine produces. -/

def isDigitCh (c : Char) : Bool := '0' ≤ c && c ≤ '9'

def digitVal (c : Char) : Nat := c.toNat - '0'.toNat

/-- Matcher for `\d{lo,hi}` (greedy): remainders after consuming `hi`
digits first, down to `lo`. -/
def digitsM (lo hi : Nat) (l : List Char) : List (List Char) :=
  let n := min hi (l.takeWhile isDigitCh).length
  (List.range (n + 1)).reverse.filterMap
    (fun k => if lo ≤ k then some (l.drop k) else none)

/-- Matcher for a literal character. -/
def litM (c : Char) : List Char → List (List Char)
  | [] => []
  | x :: xs => if x = c then [xs] else []

/-- Matcher for `\s*` (greedy). -/
def wsStarM (l : List Char) : List (List Char) :=
  let n := (l.takeWhile pyIsSpace).length
  (List.range (n + 1)).reverse.map (fun k => l.drop k)

/-- Matcher for `\s+` (greedy, at least one). -/
def wsPlusM (l : List Char) : List (List Char) :=
  let n := (l.takeWhile pyIsSpace).length
  (List.range (n + 1)).reverse.filterMap
    (fun k => if 1 ≤ k then some (l.drop k) else none)

/-- Greedy `pat?`: try matching first, then skip. -/
def optM (f : List Char → List (List Char)) (l : List Char) :
    List (List Char) :=
  f l ++ [l]

/-- Sequencing of matchers (depth-first exploration). -/
def seqM (f g : List Char → List (List Char)) (l : List Char) :
    List (List Char) :=
  (f l).flatMap g

/-- Matcher for the literal `AM` / `PM` alternation `(?:AM|PM)`. -/
def ampmM (l : List Char) : List (List Char) :=
  (if startsWithL ['A', 'M'] l then [l.drop 2] else []) ++
    (if startsWithL ['P', 'M'] l then [l.drop 2] else [])

/-- Date part `\d{1,2}/\d{1,2}/\d{2,4}` of patterns 1 and 2. -/
def slashDateM : List Char → List (List Char) :=
  seqM (digitsM 1 2) (seqM (litM '/')
    (seqM (digitsM 1 2) (seqM (litM '/') (digitsM 2 4))))

/-- Time part `\d{1,2}:\d{2}:\d{2}?\s*(?:AM|PM)?` of pattern 1 (the lazy
`{2}?` still consumes exactly two digits). -/
def time1M : List Char → List (List Char) :=
  seqM (digitsM 1 2) (seqM (litM ':') (seqM (digitsM 2 2)
    (seqM (litM ':') (seqM (digitsM 2 2) (seqM wsStarM (optM ampmM))))))

/-- Time part `\d{1,2}:\d{2}` of pattern 2. -/
def time2M : List Char → List (List Char) :=
  seqM (digitsM 1 2) (seqM (litM ':') (digitsM 2 2))

/-- Date part `\d{4}-\d{2}-\d{2}` of pattern 3. -/
def isoDateM : List Char → List (List Char) :=
  seqM (digitsM 4 4) (seqM (litM '-')
    (seqM (digitsM 2 2) (seqM (litM '-') (digitsM 2 2))))

/-- Time part `\d{2}:\d{2}:\d{2}` of pattern 3. -/
def isoTimeM : List Char → List (List Char) :=
  seqM (digitsM 2 2) (seqM (litM ':')
    (seqM (digitsM 2 2) (seqM (litM ':') (digitsM 2 2))))

/-- `re.match` of one bracketed date pattern
`\[ <date> ,? \s* <time> \]` (patterns 1 and 2 have the optional comma,
pattern 3 does not).  Returns the two capture groups and the remainder of
the line after the closing bracket, or `none` when the pattern does not
match at the start of the line. -/
def bracketMatch (dateM timeM : List Char → List (List Char))
    (allowComma : Bool) (l : List Char) :
    Option (List Char × List Char × List Char) :=
  match l with
  | '[' :: l1 =>
    (dateM l1).findSome? fun r1 =>
      let dstr := l1.take (l1.length - r1.length)
      ((if allowComma then optM (litM ',') r1 else [r1])).findSome? fun r2 =>
        (wsStarM r2).findSome? fun r3 =>
          (timeM r3).findSome? fun r4 =>
            match r4 with
            | ']' :: rest => some (dstr, r3.take (r3.length - r4.length), rest)
            | _ => none
  | _ => none

/-- `self.date_patterns[0]`. -/
def matchP1 : List Char → Option (List Char × List Char × List Char) :=
  bracketMatch slashDateM time1M true

/-- `self.date_patterns[1]`. -/
def matchP2 : List Char → Option (List Char × List Char × List Char) :=
  bracketMatch slashDateM time2M true

/-- `self.date_patterns[2]`. -/
def matchP3 : List Char → Option (List Char × List Char × List Char) :=
  bracketMatch isoDateM isoTimeM false

/-- Pattern selector, in the order of `self.date_patterns`. -/
def datePatternMatch : Nat → List Char →
    Option (List Char × List Char × List Char)
  | 0 => matchP1
  | 1 => matchP2
  | _ => matchP3

/-! ## `strptime` embedding

CPython's `_strptime` compiles each format directive to a fixed regular
expression fragment (`%m ↦ 1[0-2]|0[1-9]|[1-9]`, `%d ↦
3[01]|[12]\d|0[1-9]|[1-9]`, `%H ↦ 2[0-3]|[0-1]\d|\d`, `%I ↦
1[0-2]|0[1-9]|[1-9]`, `%M ↦ [0-5]\d|\d`, `%S ↦ 6[0-1]|[0-5]\d|\d`, `%Y ↦
\d{4}`, `%y ↦ \d{2}`, `%p ↦ AM|PM` case-insensitively, literal whitespace
↦ `\s+`), requires the whole string to be consumed, and finally builds a
`datetime`, which re-raises `ValueError` for a day that does not exist in
the month or a second above 59. -/

def pTokM (l : List Char) : List (Nat × List Char) :=
  (match l with
    | '1' :: c :: r => if '0' ≤ c && c ≤ '2' then [(10 + digitVal c, r)] else []
    | _ => []) ++
  (match l with
    | '0' :: c :: r => if '1' ≤ c && c ≤ '9' then [(digitVal c, r)] else []
    | _ => []) ++
  (match l with
    | c :: r => if '1' ≤ c && c ≤ '9' then [(digitVal c, r)] else []
    | _ => [])

def pTokD (l : List Char) : List (Nat × List Char) :=
  (match l with
    | '3' :: c :: r => if '0' ≤ c && c ≤ '1' then [(30 + digitVal c, r)] else []
    | _ => []) ++
  (match l with
    | c1 :: c2 :: r =>
      if ('1' ≤ c1 && c1 ≤ '2') && isDigitCh c2 then
        [(10 * digitVal c1 + digitVal c2, r)]
      else []
    | _ => []) ++
  (match l with
    | '0' :: c :: r => if '1' ≤ c && c ≤ '9' then [(digitVal c, r)] else []
    | _ => []) ++
  (match l with
    | c :: r => if '1' ≤ c && c ≤ '9' then [(digitVal c, r)] else []
    | _ => [])

def pTokH (l : List Char) : List (Nat × List Char) :=
  (match l with
    | '2' :: c :: r => if '0' ≤ c && c ≤ '3' then [(20 + digitVal c, r)] else []
    | _ => []) ++
  (match l with
    | c1 :: c2 :: r =>
      if ('0' ≤ c1 && c1 ≤ '1') && isDigitCh c2 then
        [(10 * digitVal c1 + digitVal c2, r)]
      else []
    | _ => []) ++
  (match l with
    | c :: r => if isDigitCh c then [(digitVal c, r)] else []
    | _ => [])

def pTokI (l : List Char) : List (Nat × List Char) := pTokM l

def pTokMin (l : List Char) : List (Nat × List Char) :=
  (match l with
    | c1 :: c2 :: r =>
      if ('0' ≤ c1 && c1 ≤ '5') && isDigitCh c2 then
        [(10 * digitVal c1 + digitVal c2, r)]
      else []
    | _ => []) ++
  (match l with
    | c :: r => if isDigitCh c then [(digitVal c, r)] else []
    | _ => [])

def pTokS (l : List Char) : List (Nat × List Char) :=
  (match l with
    | '6' :: c :: r => if '0' ≤ c && c ≤ '1' then [(60 + digitVal c, r)] else []
    | _ => []) ++
  (match l with
    | c1 :: c2 :: r =>
      if ('0' ≤ c1 && c1 ≤ '5') && isDigitCh c2 then
        [(10 * digitVal c1 + digitVal c2, r)]
      else []
    | _ => []) ++
  (match l with
    | c :: r => if isDigitCh c then [(digitVal c, r)] else []
    | _ => [])

def pTokY4 (l : List Char) : List (Nat × List Char) :=
  match l with
  | c1 :: c2 :: c3 :: c4 :: r =>
    if isDigitCh c1 && isDigitCh c2 && isDigitCh c3 && isDigitCh c4 then
      [(((digitVal c1 * 10 + digitVal c2) * 10 + digitVal c3) * 10
        + digitVal c4, r)]
    else []
  | _ => []

/-- `%y` with CPython's century rule: 0–68 ↦ 2000s, 69–99 ↦ 1900s. -/
def pTokY2 (l : List Char) : List (Nat × List Char) :=
  match l with
  | c1 :: c2 :: r =>
    if isDigitCh c1 && isDigitCh c2 then
      let y := 10 * digitVal c1 + digitVal c2
      [((if y < 69 then 2000 + y else 1900 + y), r)]
    else []
  | _ => []

/-- `%p`, case-insensitive; result is `true` for PM. -/
def pTokAmPm (l : List Char) : List (Bool × List Char) :=
  (match l with
    | c1 :: c2 :: r =>
      if (c1 = 'A' || c1 = 'a') && (c2 = 'M' || c2 = 'm') then [(false, r)]
      else []
    | _ => []) ++
  (match l with
    | c1 :: c2 :: r =>
      if (c1 = 'P' || c1 = 'p') && (c2 = 'M' || c2 = 'm') then [(true, r)]
      else []
    | _ => [])

/-- CPython's 12-hour → 24-hour conversion for `%I` with `%p`. -/
def hourFromIP (i : Nat) (pm : Bool) : Nat :=
  if pm then (if i = 12 then 12 else i + 12)
  else (if i = 12 then 0 else i)

def isLeapYear (y : Nat) : Bool :=
  y % 4 = 0 && (y % 100 ≠ 0 || y % 400 = 0)

def daysInMonth (y m : Nat) : Nat :=
  if m = 2 then (if isLeapYear y then 29 else 28)
  else if m = 4 || m = 6 || m = 9 || m = 11 then 30
  else 31

/-- The `datetime(...)` constructor's validation (the directive regexes
already bound month/hour/minute; day-in-month, year ≥ 1 and second ≤ 59
are checked here, as `datetime` raises `ValueError` otherwise). -/
def mkPyDateTime (y mo d h mi s : Nat) : Option PyDateTime :=
  if 1 ≤ y ∧ 1 ≤ d ∧ d ≤ daysInMonth y mo ∧ s ≤ 59 then
    some ⟨y, mo, d, h, mi, s⟩
  else none

/-- Finish one `strptime` format: take the regex engine's preferred match
(head of the depth-first candidate list), require the whole string to be
consumed, then validate the calendar fields. -/
def runFmt (cands : List ((Nat × Nat × Nat × Nat × Nat × Nat) × List Char)) :
    Option PyDateTime :=
  match cands.head? with
  | some ((y, mo, d, h, mi, s), rest) =>
    if rest = [] then mkPyDateTime y mo d h mi s else none
  | none => none

/-- Candidates for the month-day formats `%m/%d/<year><comma?> %I:%M(:%S)? %p`. -/
def mdyCands (y2 : Bool) (comma : Bool) (secs : Bool) (l : List Char) :
    List ((Nat × Nat × Nat × Nat × Nat × Nat) × List Char) :=
  (pTokM l).flatMap fun mo =>
  (litM '/' mo.2).flatMap fun r2 =>
  (pTokD r2).flatMap fun d =>
  (litM '/' d.2).flatMap fun r4 =>
  ((if y2 then pTokY2 else pTokY4) r4).flatMap fun y =>
  ((if comma then litM ',' y.2 else [y.2])).flatMap fun r6 =>
  (wsPlusM r6).flatMap fun r7 =>
  (pTokI r7).flatMap fun i =>
  (litM ':' i.2).flatMap fun r9 =>
  (pTokMin r9).flatMap fun mi =>
  ((if secs then (litM ':' mi.2).flatMap pTokS else [(0, mi.2)])).flatMap fun s =>
  (wsPlusM s.2).flatMap fun r12 =>
  (pTokAmPm r12).map fun pm =>
    ((y.1, mo.1, d.1, hourFromIP i.1 pm.1, mi.1, s.1), pm.2)

/-- Candidates for the day-month formats `%d/%m/%Y, %H:%M(:%S)?`. -/
def dmyCands (secs : Bool) (l : List Char) :
    List ((Nat × Nat × Nat × Nat × Nat × Nat) × List Char) :=
  (pTokD l).flatMap fun d =>
  (litM '/' d.2).flatMap fun r2 =>
  (pTokM r2).flatMap fun mo =>
  (litM '/' mo.2).flatMap fun r4 =>
  (pTokY4 r4).flatMap fun y =>
  (litM ',' y.2).flatMap fun r6 =>
  (wsPlusM r6).flatMap fun r7 =>
  (pTokH r7).flatMap fun h =>
  (litM ':' h.2).flatMap fun r9 =>
  (pTokMin r9).flatMap fun mi =>
  ((if secs then (litM ':' mi.2).flatMap pTokS else [(0, mi.2)])).map fun s =>
    ((y.1, mo.1, d.1, h.1, mi.1, s.1), s.2)

/-- Candidates for `%Y-%m-%d %H:%M:%S`. -/
def isoCands (l : List Char) :
    List ((Nat × Nat × Nat × Nat × Nat × Nat) × List Char) :=
  (pTokY4 l).flatMap fun y =>
  (litM '-' y.2).flatMap fun r2 =>
  (pTokM r2).flatMap fun mo =>
  (litM '-' mo.2).flatMap fun r4 =>
  (pTokD r4).flatMap fun d =>
  (wsPlusM d.2).flatMap fun r6 =>
  (pTokH r6).flatMap fun h =>
  (litM ':' h.2).flatMap fun r8 =>
  (pTokMin r8).flatMap fun mi =>
  (litM ':' mi.2).flatMap fun r10 =>
  (pTokS r10).map fun s =>
    ((y.1, mo.1, d.1, h.1, mi.1, s.1), s.2)

/-- The eleven formats of `_parse_timestamp`, in source order. -/
def strptimeFormats : List (List Char → Option PyDateTime) :=
  [ fun l => runFmt (mdyCands false true true l),   -- %m/%d/%Y, %I:%M:%S %p
    fun l => runFmt (mdyCands false true false l),  -- %m/%d/%Y, %I:%M %p
    fun l => runFmt (mdyCands true true true l),    -- %m/%d/%y, %I:%M:%S %p
    fun l => runFmt (mdyCands true true false l),   -- %m/%d/%y, %I:%M %p
    fun l => runFmt (dmyCands true l),              -- %d/%m/%Y, %H:%M:%S
    fun l => runFmt (dmyCands false l),             -- %d/%m/%Y, %H:%M
    fun l => runFmt (isoCands l),                   -- %Y-%m-%d %H:%M:%S
    fun l => runFmt (mdyCands true false true l),   -- %m/%d/%y %I:%M:%S %p
    fun l => runFmt (mdyCands false false true l),  -- %m/%d/%Y %I:%M:%S %p
    fun l => runFmt (mdyCands true false false l),  -- %m/%d/%y %I:%M %p
    fun l => runFmt (mdyCands false false false l)  -- %m/%d/%Y %I:%M %p
  ]

/-- `WhatsAppParser._parse_timestamp`: first format that parses. -/
def parse_timestamp (s : String) : Option PyDateTime :=
  strptimeFormats.findSome? (fun f => f s.data)

/-! ## The parser (`services/parser.py`, class `WhatsAppParser`) -/

/-- `self.system_messages` (note: the first phrase is stored with a
capital letter in the source even though it is only ever compared against
a lowercased message body). -/
def system_messages : List String :=
  [ "Messages and calls are end-to-end encrypted",
    "created group",
    "added",
    "removed",
    "left",
    "changed the group description",
    "changed this group\x27s icon" ]

/-- One character class interval of `_has_emoji`'s pattern. -/
def isEmojiChar (c : Char) : Bool :=
  let v := c.toNat
  (0x1F600 ≤ v && v ≤ 0x1F64F) ||
  (0x1F300 ≤ v && v ≤ 0x1F5FF) ||
  (0x1F680 ≤ v && v ≤ 0x1F6FF) ||
  (0x1F1E0 ≤ v && v ≤ 0x1F1FF) ||
  (0x2702 ≤ v && v ≤ 0x27B0) ||
  (0x24C2 ≤ v && v ≤ 0x1F251)

/-- `WhatsAppParser._has_emoji`: `re.search` of a one-or-more character
class succeeds iff some character of the text lies in the class. -/
def has_emoji (text : String) : Bool :=
  text.data.any isEmojiChar

/-- The character class of `_has_link`'s pattern body:
`[a-zA-Z]|[0-9]|[$-_@.&+]|[!*\(\),]` (in `[$-_@.&+]` the leading `$-_` is
the range U+0024–U+005F). -/
def isLinkChar (c : Char) : Bool :=
  let v := c.toNat
  (('a' ≤ c && c ≤ 'z') || ('A' ≤ c && c ≤ 'Z')) ||
  ('0' ≤ c && c ≤ '9') ||
  (0x24 ≤ v && v ≤ 0x5F) ||
  (c = '!' || c = '*' || c = '\\' || c = '(' || c = ')' || c = ',')

def isHexDigitCh (c : Char) : Bool :=
  isDigitCh c || ('a' ≤ c && c ≤ 'f') || ('A' ≤ c && c ≤ 'F')

/-- After the scheme, the pattern requires at least one element, an
element being a class character or a percent-escape `%hh`. -/
def linkElemAt : List Char → Bool
  | '%' :: h1 :: h2 :: _ =>
    isLinkChar '%' || (isHexDigitCh h1 && isHexDigitCh h2)
  | c :: _ => isLinkChar c
  | [] => false

def hasLinkAux : List Char → Bool
  | [] => false
  | c :: t =>
    ((startsWithL "https://".data (c :: t) &&
        linkElemAt ((c :: t).drop 8)) ||
      (startsWithL "http://".data (c :: t) &&
        linkElemAt ((c :: t).drop 7)) ||
      hasLinkAux t)

/-- `WhatsAppParser._has_link`: `re.search` for
`http[s]?://(...)+` — true iff at some position the text continues with
`https://` or `http://` followed by at least one element. -/
def has_link (text : String) : Bool :=
  hasLinkAux text.data

/-- `WhatsAppParser._determine_message_type`. -/
def determine_message_type (content : String) : String :=
  if system_messages.any
      (fun sm => containsSubL sm.data (toLowerL content.data)) then
    "system"
  else if containsSubL "<Media omitted>".data content.data ||
      containsSubL "image omitted".data (toLowerL content.data) then
    "media"
  else if containsSubL "This message was deleted".data content.data then
    "deleted"
  else
    "text"

/-- One parsed message record, as assembled by `_parse_message_line`. -/
structure ParsedMessage where
  timestamp : PyDateTime
  participant : String
  content : String
  message_type : String
  char_count : Nat
  word_count : Nat
  has_emoji : Bool
  has_link : Bool
deriving DecidableEq

/-- The body of `_parse_message_line`'s per-pattern loop iteration: given
the result of matching one date pattern, extract the participant and
body, parse the timestamp, drop system messages, and build the record.
`none` makes the loop move on to the next pattern. -/
def tryPattern (res : Option (List Char × List Char × List Char)) :
    Option ParsedMessage :=
  match res with
  | none => none
  | some (dstr, tstr, rest) =>
    let remaining := pyStrip rest
    if remaining.contains ':' then
      let participant := pyStrip (remaining.takeWhile (fun c => c ≠ ':'))
      let message_content :=
        pyStrip ((remaining.dropWhile (fun c => c ≠ ':')).drop 1)
      match parse_timestamp (String.mk (dstr ++ ' ' :: tstr)) with
      | none => none
      | some ts =>
        if system_messages.any
            (fun sm => containsSubL sm.data (toLowerL message_content)) then
          none
        else
          some
            { timestamp := ts
              participant := String.mk participant
              content := String.mk message_content
              message_type := determine_message_type (String.mk message_content)
              char_count := message_content.length
              word_count := (pySplitWS message_content).length
              has_emoji := has_emoji (String.mk message_content)
              has_link := has_link (String.mk message_content) }
    else none

/-- `WhatsAppParser._parse_message_line`: try the three date patterns in
order; the first whose whole pipeline succeeds yields the record. -/
def parse_message_line (line : List Char) : Option ParsedMessage :=
  match tryPattern (matchP1 line) with
  | some m => some m
  | none =>
    match tryPattern (matchP2 line) with
    | some m => some m
    | none => tryPattern (matchP3 line)

/-- The result dictionary of `WhatsAppParser.parse_chat`. -/
structure ParsedTranscript where
  title : String
  messages : List ParsedMessage
  participants : List String
  date_range_start : Option PyDateTime
  date_range_end : Option PyDateTime
deriving DecidableEq

/-- One iteration of `parse_chat`'s line loop, threading the
`messages` / `participants` / `date_range` accumulators.  The Python
`participants` set is modelled as a list in first-insertion order (set
iteration order is not otherwise observed by any property proved here). -/
def parseStep (acc : List ParsedMessage × List String × List PyDateTime)
    (raw : List Char) :
    List ParsedMessage × List String × List PyDateTime :=
  let line := pyStrip raw
  if line.isEmpty then acc
  else
    match parse_message_line line with
    | none => acc
    | some m =>
      (acc.1 ++ [m],
        (if acc.2.1.contains m.participant then acc.2.1
          else acc.2.1 ++ [m.participant]),
        acc.2.2 ++ [m.timestamp])

/-- `WhatsAppParser.parse_chat` (after the best-effort UTF-8 decode,
which is I/O and not modelled: `text_content` is the decoded text). -/
def parse_chat (text_content : String) (filename : String) :
    ParsedTranscript :=
  let st := (splitOnNl text_content.data).foldl parseStep ([], [], [])
  { title := String.mk
      (pyReplace "_".data " ".data (pyReplace ".txt".data [] filename.data))
    messages := st.1
    participants := st.2.1
    date_range_start := pyMinD st.2.2
    date_range_end := pyMaxD st.2.2 }

/-! ## Generic helpers used by the analytics embedding -/

/-- Helper for `uniq`: keep each element not seen before. -/
def uniqAux {α : Type} [DecidableEq α] (seen : List α) : List α → List α
  | [] => []
  | a :: l =>
    if a ∈ seen then uniqAux seen l else a :: uniqAux (a :: seen) l

/-- Distinct elements of a list in first-occurrence order (the key order
of a Python `dict` / `collections.Counter` built by repeated updates). -/
def uniq {α : Type} [DecidableEq α] (l : List α) : List α :=
  uniqAux [] l

theorem mem_uniqAux {α : Type} [DecidableEq α] (b : α) :
    ∀ (l seen : List α), b ∈ uniqAux seen l ↔ (b ∈ l ∧ b ∉ seen) := by
  intro l
  induction l with
  | nil => intro seen; simp [uniqAux]
  | cons a l ih =>
    intro seen
    rw [uniqAux]
    by_cases hc : a ∈ seen
    · rw [if_pos hc, ih seen]
      constructor
      · exact fun h => ⟨List.mem_cons_of_mem a h.1, h.2⟩
      · rintro ⟨h1, h2⟩
        rcases List.mem_cons.mp h1 with hb | hb
        · exact absurd (hb ▸ hc) h2
        · exact ⟨hb, h2⟩
    · rw [if_neg hc]
      constructor
      · intro h
        rcases List.mem_cons.mp h with hb | hb
        · exact ⟨hb ▸ List.mem_cons_self a l, hb ▸ hc⟩
        · rcases (ih (a :: seen)).mp hb with ⟨h1, h2⟩
          refine ⟨List.mem_cons_of_mem a h1, fun hmem => h2 ?_⟩
          exact List.mem_cons_of_mem a hmem
      · rintro ⟨h1, h2⟩
        by_cases hb : b = a
        · exact hb ▸ List.mem_cons_self a _
        · rcases List.mem_cons.mp h1 with h1a | h1l
          · exact absurd h1a hb
          · refine List.mem_cons_of_mem a ((ih (a :: seen)).mpr ⟨h1l, ?_⟩)
            intro hmem
            rcases List.mem_cons.mp hmem with hba | hbs
            · exact hb hba
            · exact h2 hbs

theorem mem_uniq {α : Type} [DecidableEq α] (b : α) (l : List α) :
    b ∈ uniq l ↔ b ∈ l := by
  rw [uniq, mem_uniqAux]
  simp

theorem nodup_uniqAux {α : Type} [DecidableEq α] :
    ∀ (l seen : List α), (uniqAux seen l).Nodup := by
  intro l
  induction l with
  | nil => intro seen; simp [uniqAux]
  | cons a l ih =>
    intro seen
    rw [uniqAux]
    by_cases hc : a ∈ seen
    · rw [if_pos hc]; exact ih seen
    · rw [if_neg hc, List.nodup_cons]
      refine ⟨fun hmem => ?_, ih (a :: seen)⟩
      exact ((mem_uniqAux a l (a :: seen)).mp hmem).2 (List.mem_cons_self a seen)

theorem nodup_uniq {α : Type} [DecidableEq α] (l : List α) :
    (uniq l).Nodup :=
  nodup_uniqAux l []

theorem toFinset_uniq {α : Type} [DecidableEq α] (l : List α) :
    (uniq l).toFinset = l.toFinset := by
  ext b
  simp [List.mem_toFinset, mem_uniq]

/-- Summing, over each distinct element, its multiplicity in the original
list recovers the length (total of a `Counter` = number of updates). -/
theorem sum_uniq_count {α : Type} [DecidableEq α] (l : List α) :
    ((uniq l).map (fun a => l.count a)).sum = l.length := by
  have h1 : ((uniq l).toFinset).sum (fun a => l.count a) =
      ((uniq l).map (fun a => l.count a)).sum :=
    List.sum_toFinset _ (nodup_uniq l)
  rw [← h1, toFinset_uniq, List.sum_toFinset_count_eq_length]

/-- Stable insertion (descending by `key`): the new element goes after
all earlier elements whose key is ≥ its own. -/
def insDescBy {α β : Type} [LinearOrder β] (key : α → β) (x : α) :
    List α → List α
  | [] => [x]
  | y :: ys => if key y < key x then x :: y :: ys else y :: insDescBy key x ys

/-- Stable descending sort by `key`, processing elements left to right
(the observable behaviour of Python's stable `sorted(..., reverse=True)`).
-/
def sortDescBy {α β : Type} [LinearOrder β] (key : α → β) (l : List α) :
    List α :=
  l.foldl (fun acc x => insDescBy key x acc) []

theorem insDescBy_perm {α β : Type} [LinearOrder β] (key : α → β) (x : α) :
    ∀ l : List α, List.Perm (insDescBy key x l) (x :: l)
  | [] => List.Perm.refl _
  | y :: ys => by
    rw [insDescBy]
    by_cases h : key y < key x
    · simp [h]
    · simp only [h, if_false]
      exact (List.Perm.cons y (insDescBy_perm key x ys)).trans
        (List.Perm.swap x y ys)

theorem sortDescBy_perm {α β : Type} [LinearOrder β] (key : α → β)
    (l : List α) : List.Perm (sortDescBy key l) l := by
  suffices h : ∀ (l acc : List α),
      List.Perm (l.foldl (fun acc x => insDescBy key x acc) acc) (acc ++ l) by
    simpa using h l []
  intro l
  induction l with
  | nil => intro acc; simp
  | cons x xs ih =>
    intro acc
    have h1 : List.Perm (xs.foldl (fun acc x => insDescBy key x acc)
        (insDescBy key x acc)) (insDescBy key x acc ++ xs) := ih _
    have h2 : List.Perm (insDescBy key x acc ++ xs) ((x :: acc) ++ xs) :=
      (insDescBy_perm key x acc).append_right xs
    have hmid : List.Perm (acc ++ x :: xs) (x :: (acc ++ xs)) :=
      List.perm_middle
    have h3 : List.Perm ((x :: acc) ++ xs) (acc ++ x :: xs) := by
      simpa using hmid.symm
    exact (h1.trans h2).trans h3

/-- Exact decimal rounding to one fractional digit with ties to even,
the behaviour of Python's `round(x, 1)` (CPython computes it on the
binary-float representation of `x`, whose representation error is not
modelled; no property proved here depends on tie cases). -/
def pythonRound1 (x : ℚ) : ℚ :=
  let y := 10 * x
  let f : ℤ := ⌊y⌋
  let r := y - f
  if r < 1 / 2 then (f : ℚ) / 10
  else if 1 / 2 < r then ((f : ℚ) + 1) / 10
  else if f % 2 = 0 then (f : ℚ) / 10 else ((f : ℚ) + 1) / 10

/-! ## The analytics engine

The analytics functions read rows `(timestamp, sender)` produced by SQL
queries over the stored messages; a stored timestamp is modelled as the
integer number of seconds since the epoch (whole seconds: every stored
timestamp comes from `strptime` without fractional seconds), so that
`(a - b).total_seconds()` is integer subtraction and SQLite's
`strftime('%w')` / `strftime('%H')` are the standard epoch formulas
below (day 0 of the epoch, 1970-01-01, was a Thursday, hence the
offset 4 giving Sunday = 0). -/

structure AMsg where
  ts : Int
  sender : String
deriving DecidableEq

/-- SQLite `strftime('%w', ts)`: day of week, Sunday = 0 … Saturday = 6
(`/` and `%` on `Int` are floor division and its remainder, matching the
days-since-epoch computation; epoch day 0 was a Thursday, offset 4). -/
def dowOf (t : Int) : Nat := ((t / 86400 + 4) % 7).toNat

/-- SQLite `strftime('%H', ts)`: hour of day, 0–23. -/
def hourOf (t : Int) : Nat := ((t % 86400) / 3600).toNat

theorem dowOf_lt (t : Int) : dowOf t < 7 := by
  have h := Int.emod_lt_of_pos (t / 86400 + 4) (show (0:Int) < 7 by norm_num)
  have h0 := Int.emod_nonneg (t / 86400 + 4) (show (7:Int) ≠ 0 by norm_num)
  unfold dowOf
  omega

theorem hourOf_lt (t : Int) : hourOf t < 24 := by
  have h1 := Int.emod_lt_of_pos t (show (0:Int) < 86400 by norm_num)
  have h0 := Int.emod_nonneg t (show (86400:Int) ≠ 0 by norm_num)
  unfold hourOf
  omega

/-! ## Interaction metrics
(`ExtendedChatAnalyzer.get_interaction_metrics`; the copy in
`ChatAnalyzer.get_interaction_metrics` is line-for-line identical in the
modelled behaviour). -/

/-- One long-pause record, as appended to `pauses`.  `duration_hours` is
`round(time_diff / 3600, 1)`; `before` / `after` keep the boundary
timestamps (the code stores their `isoformat()` strings). -/
structure Pause where
  duration_hours : ℚ
  before : Int
  after : Int
  restarted_by : String
deriving DecidableEq

def mkPause (prev cur : AMsg) : Pause :=
  { duration_hours := pythonRound1 (((cur.ts - prev.ts : Int) : ℚ) / 3600)
    before := prev.ts
    after := cur.ts
    restarted_by := cur.sender }

/-- The `for i in range(1, len(messages))` loop: starting from `prev`,
walk the remaining messages accumulating response-time samples
`(sender, seconds)`, the conversation-starter increments caused by long
pauses, and the pause records, all in encounter order. -/
def imLoop : AMsg → List AMsg →
    List (String × Int) × List String × List Pause
  | _, [] => ([], [], [])
  | prev, cur :: rest =>
    let acc := imLoop cur rest
    let d : Int := cur.ts - prev.ts
    let samples :=
      if cur.sender ≠ prev.sender ∧ d < 3600 ∧ 0 < d then
        (cur.sender, d) :: acc.1
      else acc.1
    if 14400 < d then
      (samples, cur.sender :: acc.2.1, mkPause prev cur :: acc.2.2)
    else (samples, acc.2.1, acc.2.2)

/-- The result of `get_interaction_metrics`.  `response_samples`,
`starter_events` and `pauses` expose the loop's accumulators (the
`defaultdict` of samples, the sequence of `conversation_starters[...] += 1`
increments, and the untruncated pause list); `conversation_starters` and
`longest_pauses` are the returned, sorted shapes.  The per-sender
mean/median response-time summary is float arithmetic on the samples and
is not modelled (no claim concerns it). -/
structure InteractionMetrics where
  response_samples : List (String × Int)
  starter_events : List String
  pauses : List Pause
  conversation_starters : List (String × Nat)
  longest_pauses : List Pause
deriving DecidableEq

def emptyInteractionMetrics : InteractionMetrics :=
  { response_samples := []
    starter_events := []
    pauses := []
    conversation_starters := []
    longest_pauses := [] }

/-- `get_interaction_metrics` over the timestamp-ordered message rows. -/
def get_interaction_metrics (msgs : List AMsg) : InteractionMetrics :=
  if msgs.length < 2 then emptyInteractionMetrics
  else
    match msgs with
    | [] => emptyInteractionMetrics
    | m :: rest =>
      let acc := imLoop m rest
      let starters := m.sender :: acc.2.1
      { response_samples := acc.1
        starter_events := starters
        pauses := acc.2.2
        conversation_starters :=
          sortDescBy (fun e => e.2)
            ((uniq starters).map (fun s => (s, starters.count s)))
        longest_pauses :=
          (sortDescBy Pause.duration_hours acc.2.2).take 10 }

/-- Adjacent pairs of a message sequence, in order. -/
def adjPairs : List AMsg → List (AMsg × AMsg)
  | [] => []
  | [_] => []
  | a :: b :: rest => (a, b) :: adjPairs (b :: rest)

/-- Declarative description of the recorded response-time samples: one
sample `(sender, seconds)` for the later message of each adjacent pair
with a different sender and a delta strictly between 0 and 3600. -/
def responseSamplesSpec (msgs : List AMsg) : List (String × Int) :=
  (adjPairs msgs).filterMap fun p =>
    if p.2.sender ≠ p.1.sender ∧ p.2.ts - p.1.ts < 3600 ∧ 0 < p.2.ts - p.1.ts
    then some (p.2.sender, p.2.ts - p.1.ts) else none

/-- Declarative description of the recorded long pauses: one record for
each adjacent pair whose delta exceeds 14400 seconds. -/
def pausesSpec (msgs : List AMsg) : List Pause :=
  (adjPairs msgs).filterMap fun p =>
    if 14400 < p.2.ts - p.1.ts then some (mkPause p.1 p.2) else none

theorem imLoop_eq_spec (prev : AMsg) (rest : List AMsg) :
    imLoop prev rest =
      (responseSamplesSpec (prev :: rest),
        (pausesSpec (prev :: rest)).map Pause.restarted_by,
        pausesSpec (prev :: rest)) := by
  induction rest generalizing prev with
  | nil => simp [imLoop, responseSamplesSpec, pausesSpec, adjPairs]
  | cons cur rest ih =>
    have hadj : adjPairs (prev :: cur :: rest) =
        (prev, cur) :: adjPairs (cur :: rest) := rfl
    rw [imLoop, ih cur]
    unfold responseSamplesSpec pausesSpec
    rw [hadj, List.filterMap_cons, List.filterMap_cons]
    by_cases hs : cur.sender ≠ prev.sender ∧ cur.ts - prev.ts < 3600 ∧
        0 < cur.ts - prev.ts
    · rw [if_pos hs]
      by_cases hp : (14400 : Int) < cur.ts - prev.ts
      · omega
      · rw [if_pos hs, if_neg hp, if_neg hp]
    · rw [if_neg hs, if_neg hs]
      by_cases hp : (14400 : Int) < cur.ts - prev.ts
      · rw [if_pos hp, if_pos hp]
        simp [responseSamplesSpec, pausesSpec, mkPause]
      · rw [if_neg hp, if_neg hp]

/-! ## Activity heatmap
(`ExtendedChatAnalyzer.get_hourly_activity_heatmap`; identical matrix
logic in `ChatAnalyzer.get_activity_heatmap` and
`ChatAnalyzer.get_hourly_activity_heatmap`). -/

/-- Read cell `[d][h]` of a list-of-lists matrix (0 outside bounds; all
accesses below are in bounds). -/
def getCell (M : List (List Nat)) (d h : Nat) : Nat :=
  (M.getD d []).getD h 0

/-- Python `matrix[d][h] = v`. -/
def setCell (M : List (List Nat)) (d h : Nat) (v : Nat) :
    List (List Nat) :=
  M.set d ((M.getD d []).set h v)

/-- `[[0 for _ in range(24)] for _ in range(7)]`. -/
def zeroMatrix : List (List Nat) :=
  List.replicate 7 (List.replicate 24 0)

/-- The grouping key `(strftime('%w'), strftime('%H'))` of one row. -/
def hmKey (m : AMsg) : Nat × Nat := (dowOf m.ts, hourOf m.ts)

/-- The rows of the `GROUP BY` query: one `(key, count)` pair per
distinct key (SQL row order is unspecified; first-encounter order is
used, and no property proved here depends on it). -/
def heatmapGroups (msgs : List AMsg) : List ((Nat × Nat) × Nat) :=
  (uniq (msgs.map hmKey)).map
    (fun k => (k, (msgs.filter (fun m => hmKey m = k)).length))

/-- The result of `get_hourly_activity_heatmap`. -/
structure Heatmap where
  days : List String
  hours_len : Nat
  data : List (List Nat)
  max_count : Nat
deriving DecidableEq

/-- `get_hourly_activity_heatmap`: fill a zeroed 7×24 matrix from the
grouped rows, tracking the running maximum cell value. -/
def get_hourly_activity_heatmap (msgs : List AMsg) : Heatmap :=
  let groups := heatmapGroups msgs
  { days := ["Sunday", "Monday", "Tuesday", "Wednesday", "Thursday",
      "Friday", "Saturday"]
    hours_len := 24
    data := groups.foldl (fun M kc => setCell M kc.1.1 kc.1.2 kc.2) zeroMatrix
    max_count := groups.foldl (fun acc kc => max acc kc.2) 0 }

theorem getD_set_self {α : Type} (l : List α) (i : Nat) (a d : α)
    (h : i < l.length) : (l.set i a).getD i d = a := by
  induction l generalizing i with
  | nil => simp at h
  | cons x xs ih =>
    cases i with
    | zero => simp [List.set]
    | succ j =>
      simp only [List.set, List.getD_cons_succ]
      exact ih j (by simpa using h)

theorem getD_set_ne {α : Type} (l : List α) (i j : Nat) (a d : α)
    (h : i ≠ j) : (l.set i a).getD j d = l.getD j d := by
  induction l generalizing i j with
  | nil => simp [List.set]
  | cons x xs ih =>
    cases i with
    | zero =>
      cases j with
      | zero => exact absurd rfl h
      | succ j2 => simp [List.set]
    | succ i2 =>
      cases j with
      | zero => simp [List.set]
      | succ j2 =>
        simp only [List.set, List.getD_cons_succ]
        exact ih i2 j2 (fun hh => h (by rw [hh]))

theorem length_setCell (M : List (List Nat)) (d h v : Nat) :
    (setCell M d h v).length = M.length := by
  simp [setCell]

theorem row_length_setCell (M : List (List Nat)) (d h v j : Nat) :
    ((setCell M d h v).getD j []).length = (M.getD j []).length := by
  by_cases hj : d = j
  · subst hj
    by_cases hd : d < M.length
    · rw [setCell, getD_set_self _ _ _ _ hd]
      simp
    · have : M.set d ((M.getD d []).set h v) = M := by
        apply List.set_eq_of_length_le
        omega
      rw [setCell, this]
  · rw [setCell, getD_set_ne _ _ _ _ _ hj]

theorem getCell_setCell_self (M : List (List Nat)) (d h v : Nat)
    (hd : d < M.length) (hh : h < (M.getD d []).length) :
    getCell (setCell M d h v) d h = v := by
  rw [getCell, setCell, getD_set_self _ _ _ _ hd, getD_set_self _ _ _ _ hh]

theorem getCell_setCell_ne (M : List (List Nat)) (d h v d2 h2 : Nat)
    (hne : (d, h) ≠ (d2, h2)) :
    getCell (setCell M d h v) d2 h2 = getCell M d2 h2 := by
  by_cases hd : d = d2
  · subst hd
    have hh : h ≠ h2 := fun hcon => hne (by rw [hcon])
    by_cases hlen : d < M.length
    · rw [getCell, setCell, getD_set_self _ _ _ _ hlen,
        getD_set_ne _ _ _ _ _ hh, getCell]
    · have : M.set d ((M.getD d []).set h v) = M := by
        apply List.set_eq_of_length_le
        omega
      rw [getCell, setCell, this, getCell]
  · rw [getCell, setCell, getD_set_ne _ _ _ _ _ hd, getCell]

/-- Number of messages falling in heatmap cell `k = (day, hour)`. -/
def hmCount (msgs : List AMsg) (k : Nat × Nat) : Nat :=
  (msgs.filter (fun m => hmKey m = k)).length

theorem lookup_heatmapGroups (msgs : List AMsg) (k : Nat × Nat) :
    List.lookup k (heatmapGroups msgs) =
      if k ∈ uniq (msgs.map hmKey) then some (hmCount msgs k) else none := by
  unfold heatmapGroups hmCount
  induction uniq (msgs.map hmKey) with
  | nil => simp
  | cons a l ih =>
    by_cases hk : k = a
    · subst hk
      simp [List.lookup]
    · have hne : (k == a) = false := by simp [hk]
      simp only [List.map_cons, List.lookup, hne, ih, List.mem_cons]
      simp [hk]

theorem lookup_eq_none_of_not_mem {gs : List ((Nat × Nat) × Nat)}
    {k : Nat × Nat} (h : k ∉ gs.map Prod.fst) : List.lookup k gs = none := by
  induction gs with
  | nil => rfl
  | cons g l ih =>
    simp only [List.map_cons, List.mem_cons] at h
    push_neg at h
    have hne : (k == g.1) = false := by simp [h.1]
    simpa [List.lookup, hne] using ih h.2

/-- Filling a matrix from rows with pairwise-distinct keys: a cell holds
the count of its key if present, otherwise its initial value. -/
theorem getCell_fill (gs : List ((Nat × Nat) × Nat)) :
    ∀ (M : List (List Nat)), (gs.map Prod.fst).Nodup →
    (∀ g ∈ gs, g.1.1 < M.length ∧ g.1.2 < (M.getD g.1.1 []).length) →
    ∀ d h, getCell (gs.foldl (fun M kc => setCell M kc.1.1 kc.1.2 kc.2) M) d h
      = (List.lookup (d, h) gs).getD (getCell M d h) := by
  induction gs with
  | nil => intro M _ _ d h; rfl
  | cons g gs ih =>
    intro M hnd hbound d h
    have hnd' : (gs.map Prod.fst).Nodup := (List.nodup_cons.mp hnd).2
    have hhead : g.1 ∉ gs.map Prod.fst := (List.nodup_cons.mp hnd).1
    have hbound' : ∀ g2 ∈ gs, g2.1.1 < (setCell M g.1.1 g.1.2 g.2).length ∧
        g2.1.2 < ((setCell M g.1.1 g.1.2 g.2).getD g2.1.1 []).length := by
      intro g2 hg2
      rw [length_setCell, row_length_setCell]
      exact hbound g2 (List.mem_cons_of_mem _ hg2)
    have hstep := ih (setCell M g.1.1 g.1.2 g.2) hnd' hbound' d h
    rw [List.foldl_cons, hstep]
    by_cases hk : (d, h) = g.1
    · have hlk : List.lookup (d, h) gs = none := by
        apply lookup_eq_none_of_not_mem
        rw [hk]; exact hhead
      have hbg := hbound g (List.mem_cons_self g gs)
      have hcell : getCell (setCell M g.1.1 g.1.2 g.2) d h = g.2 := by
        have hd : d = g.1.1 := by rw [← hk]
        have hh : h = g.1.2 := by rw [← hk]
        subst hd; subst hh
        exact getCell_setCell_self M _ _ _ hbg.1 hbg.2
      have hbeq : ((d, h) == g.1) = true := by simp [hk]
      rw [hlk, Option.getD_none, hcell, List.lookup, hbeq]
      rfl
    · have hcell : getCell (setCell M g.1.1 g.1.2 g.2) d h =
          getCell M d h :=
        getCell_setCell_ne M _ _ _ _ _ (fun hcon => hk hcon.symm)
      have hbeq : ((d, h) == g.1) = false := by simp [hk]
      rw [hcell, List.lookup, hbeq]

theorem getD_replicate {α : Type} (n : Nat) (a dflt : α) :
    ∀ d, (List.replicate n a).getD d dflt = if d < n then a else dflt := by
  induction n with
  | zero => intro d; simp
  | succ k ih =>
    intro d
    cases d with
    | zero => simp [List.replicate]
    | succ d2 =>
      simp only [List.replicate, List.getD_cons_succ, ih d2]
      by_cases hd : d2 < k
      · rw [if_pos hd, if_pos (by omega)]
      · rw [if_neg hd, if_neg (by omega)]

theorem zeroMatrix_length : zeroMatrix.length = 7 := by
  simp [zeroMatrix]

theorem zeroMatrix_row_length (d : Nat) (hd : d < 7) :
    (zeroMatrix.getD d []).length = 24 := by
  rw [zeroMatrix, getD_replicate, if_pos hd]
  simp

theorem getCell_zeroMatrix (d h : Nat) : getCell zeroMatrix d h = 0 := by
  unfold getCell zeroMatrix
  rw [getD_replicate]
  by_cases hd : d < 7
  · rw [if_pos hd, getD_replicate]
    by_cases hh : h < 24
    · rw [if_pos hh]
    · rw [if_neg hh]
  · rw [if_neg hd]
    simp

theorem getD_eq_get {α : Type} :
    ∀ (l : List α) (d : Nat) (dflt : α) (h : d < l.length),
      l.getD d dflt = l.get ⟨d, h⟩
  | _ :: _, 0, _, _ => rfl
  | _ :: xs, d + 1, dflt, h =>
    getD_eq_get xs d dflt (by simpa using h)

theorem getD_of_le {α : Type} :
    ∀ (l : List α) (d : Nat) (dflt : α), l.length ≤ d → l.getD d dflt = dflt
  | [], _, _, _ => rfl
  | _ :: xs, d + 1, dflt, h => getD_of_le xs d dflt (by simpa using h)

theorem getD_mem {α : Type} (l : List α) (d : Nat) (dflt : α)
    (h : d < l.length) : l.getD d dflt ∈ l := by
  rw [getD_eq_get l d dflt h]
  exact List.get_mem l d h

theorem fill_length (gs : List ((Nat × Nat) × Nat)) :
    ∀ M : List (List Nat),
      (gs.foldl (fun M kc => setCell M kc.1.1 kc.1.2 kc.2) M).length =
        M.length := by
  induction gs with
  | nil => intro M; rfl
  | cons g gs ih =>
    intro M
    rw [List.foldl_cons, ih, length_setCell]

theorem fill_row_length (gs : List ((Nat × Nat) × Nat)) :
    ∀ (M : List (List Nat)) (j : Nat),
      ((gs.foldl (fun M kc => setCell M kc.1.1 kc.1.2 kc.2) M).getD j
        []).length = (M.getD j []).length := by
  induction gs with
  | nil => intro M j; rfl
  | cons g gs ih =>
    intro M j
    rw [List.foldl_cons, ih, row_length_setCell]

theorem sum_eq_sum_getD (l : List Nat) :
    l.sum = ∑ h in Finset.range l.length, l.getD h 0 := by
  induction l with
  | nil => simp
  | cons x xs ih =>
    rw [List.sum_cons, List.length_cons, Finset.sum_range_succ', ih]
    simp only [List.getD_cons_succ, List.getD_cons_zero]
    omega

theorem mapSum_eq_sum_rows (M : List (List Nat)) :
    (M.map List.sum).sum = ∑ d in Finset.range M.length, (M.getD d []).sum := by
  induction M with
  | nil => simp
  | cons r rs ih =>
    rw [List.map_cons, List.sum_cons, List.length_cons,
      Finset.sum_range_succ', ih]
    simp only [List.getD_cons_succ, List.getD_cons_zero]
    omega

theorem foldl_max_eq_map_snd (gs : List ((Nat × Nat) × Nat)) :
    ∀ a : Nat, gs.foldl (fun acc kc => max acc kc.2) a =
      (gs.map Prod.snd).foldl max a := by
  induction gs with
  | nil => intro a; rfl
  | cons g gs ih => intro a; simp [ih]

theorem le_foldl_max_init : ∀ (l : List Nat) (a : Nat), a ≤ l.foldl max a
  | [], _ => le_refl _
  | x :: xs, a =>
    le_trans (Nat.le_max_left a x) (le_foldl_max_init xs (max a x))

theorem le_foldl_max_of_mem {b : Nat} :
    ∀ (l : List Nat) (a : Nat), b ∈ l → b ≤ l.foldl max a
  | [], _, h => absurd h (List.not_mem_nil b)
  | x :: xs, a, h => by
    rcases List.mem_cons.mp h with hb | hb
    · subst hb
      exact le_trans (Nat.le_max_right a b) (le_foldl_max_init xs _)
    · exact le_foldl_max_of_mem xs (max a x) hb

theorem foldl_max_le {c : Nat} :
    ∀ (l : List Nat) (a : Nat), a ≤ c → (∀ b ∈ l, b ≤ c) →
      l.foldl max a ≤ c
  | [], _, ha, _ => ha
  | x :: xs, a, ha, hl => by
    apply foldl_max_le xs (max a x)
    · exact max_le ha (hl x (List.mem_cons_self x xs))
    · exact fun b hb => hl b (List.mem_cons_of_mem x hb)

/-- Maximum cell value of a list-of-lists matrix. -/
def matrixMax (M : List (List Nat)) : Nat :=
  (M.map (fun r => r.foldl max 0)).foldl max 0

theorem getCell_le_matrixMax (M : List (List Nat)) (d h : Nat)
    (hd : d < M.length) : getCell M d h ≤ matrixMax M := by
  unfold getCell matrixMax
  set row := M.getD d [] with hrow
  by_cases hh : h < row.length
  · have h1 : row.getD h 0 ≤ row.foldl max 0 :=
      le_foldl_max_of_mem row 0 (getD_mem row h 0 hh)
    have h2 : row.foldl max 0 ≤ (M.map (fun r => r.foldl max 0)).foldl max 0 := by
      apply le_foldl_max_of_mem
      exact List.mem_map_of_mem _ (by rw [hrow]; exact getD_mem M d [] hd)
    exact le_trans h1 h2
  · rw [getD_of_le row h 0 (Nat.le_of_not_lt hh)]
    exact Nat.zero_le _

theorem heatmapGroups_keys (msgs : List AMsg) :
    (heatmapGroups msgs).map Prod.fst = uniq (msgs.map hmKey) := by
  unfold heatmapGroups
  rw [List.map_map]
  have hcomp : (Prod.fst ∘ fun k : Nat × Nat =>
      (k, (List.filter (fun m => decide (hmKey m = k)) msgs).length)) = id := rfl
  rw [hcomp, List.map_id]

theorem hmCount_eq_zero_of_not_mem {msgs : List AMsg} {k : Nat × Nat}
    (h : k ∉ msgs.map hmKey) : hmCount msgs k = 0 := by
  unfold hmCount
  rw [List.length_eq_zero, List.filter_eq_nil]
  intro m hm
  simp only [decide_eq_true_eq]
  intro hkey
  apply h
  rw [← hkey]
  exact List.mem_map_of_mem hmKey hm

/-- Every cell of the returned heatmap holds the number of messages with
the corresponding `(day-of-week, hour)` key. -/
theorem heatmap_cell (msgs : List AMsg) (d h : Nat) :
    getCell (get_hourly_activity_heatmap msgs).data d h =
      hmCount msgs (d, h) := by
  have hkeys := heatmapGroups_keys msgs
  have hnd : ((heatmapGroups msgs).map Prod.fst).Nodup := by
    rw [hkeys]; exact nodup_uniq _
  have hbound : ∀ g ∈ heatmapGroups msgs,
      g.1.1 < zeroMatrix.length ∧ g.1.2 < (zeroMatrix.getD g.1.1 []).length := by
    intro g hg
    have hmem : g.1 ∈ (heatmapGroups msgs).map Prod.fst :=
      List.mem_map_of_mem Prod.fst hg
    rw [hkeys, mem_uniq] at hmem
    rcases List.mem_map.mp hmem with ⟨m, _, hkey⟩
    have hd7 : g.1.1 < 7 := by
      rw [← hkey]; exact dowOf_lt m.ts
    have hh24 : g.1.2 < 24 := by
      rw [← hkey]; exact hourOf_lt m.ts
    refine ⟨by rw [zeroMatrix_length]; exact hd7, ?_⟩
    rw [zeroMatrix_row_length g.1.1 hd7]
    exact hh24
  have hfill := getCell_fill (heatmapGroups msgs) zeroMatrix hnd hbound d h
  show getCell ((heatmapGroups msgs).foldl
      (fun M kc => setCell M kc.1.1 kc.1.2 kc.2) zeroMatrix) d h = _
  rw [hfill, lookup_heatmapGroups, getCell_zeroMatrix]
  by_cases hmem : (d, h) ∈ uniq (msgs.map hmKey)
  · rw [if_pos hmem]; rfl
  · rw [if_neg hmem, Option.getD_none]
    rw [mem_uniq] at hmem
    exact (hmCount_eq_zero_of_not_mem hmem).symm

theorem hmCount_cons (m : AMsg) (msgs : List AMsg) (k : Nat × Nat) :
    hmCount (m :: msgs) k =
      hmCount msgs k + (if hmKey m = k then 1 else 0) := by
  unfold hmCount
  rw [List.filter_cons]
  by_cases hk : hmKey m = k
  · simp [hk]
  · simp [hk]

theorem sum_hmCount (msgs : List AMsg) :
    (∑ d in Finset.range 7, ∑ h in Finset.range 24,
      hmCount msgs (d, h)) = msgs.length := by
  induction msgs with
  | nil => simp [hmCount]
  | cons m msgs ih =>
    have hsplit : ∀ d h, hmCount (m :: msgs) (d, h) =
        hmCount msgs (d, h) + (if hmKey m = (d, h) then 1 else 0) :=
      fun d h => hmCount_cons m msgs (d, h)
    have hrw : (∑ d in Finset.range 7, ∑ h in Finset.range 24,
        hmCount (m :: msgs) (d, h)) =
        (∑ d in Finset.range 7, ∑ h in Finset.range 24, hmCount msgs (d, h)) +
        (∑ d in Finset.range 7, ∑ h in Finset.range 24,
          (if hmKey m = (d, h) then 1 else 0)) := by
      rw [← Finset.sum_add_distrib]
      apply Finset.sum_congr rfl
      intro d _
      rw [← Finset.sum_add_distrib]
      exact Finset.sum_congr rfl (fun h _ => hsplit d h)
    have hind : (∑ d in Finset.range 7, ∑ h in Finset.range 24,
        (if hmKey m = (d, h) then (1 : ℕ) else 0)) = 1 := by
      have hinner : ∀ d, (∑ h in Finset.range 24,
          (if hmKey m = (d, h) then (1 : ℕ) else 0)) =
          if dowOf m.ts = d then 1 else 0 := by
        intro d
        by_cases hdd : dowOf m.ts = d
        · rw [if_pos hdd]
          have : ∀ h, (hmKey m = (d, h)) = (hourOf m.ts = h) := by
            intro h
            unfold hmKey
            rw [Prod.mk.injEq]
            simp [hdd]
          simp only [this]
          rw [Finset.sum_ite_eq (Finset.range 24) (hourOf m.ts) (fun _ => 1)]
          rw [if_pos (Finset.mem_range.mpr (hourOf_lt m.ts))]
        · rw [if_neg hdd]
          apply Finset.sum_eq_zero
          intro h _
          rw [if_neg]
          intro hcon
          unfold hmKey at hcon
          rw [Prod.mk.injEq] at hcon
          exact hdd hcon.1
      simp only [hinner]
      rw [Finset.sum_ite_eq (Finset.range 7) (dowOf m.ts) (fun _ => 1)]
      rw [if_pos (Finset.mem_range.mpr (dowOf_lt m.ts))]
    rw [hrw, ih, hind, List.length_cons]

/-! ## Word frequency (`ChatAnalyzer.get_word_frequency`) -/

/-- `self.stop_words` (the Python set literal, which contains `her`
twice; set construction deduplicates, and only membership is used). -/
def stop_words : List String :=
  [ "the", "and", "or", "but", "in", "on", "at", "to", "for", "of", "with",
    "by", "from", "up", "about", "into", "through", "during", "before",
    "after", "above", "below", "between", "among", "throughout", "despite",
    "towards", "upon", "concerning", "a", "an", "as", "are", "was", "were",
    "been", "be", "have", "has", "had", "do", "does", "did", "will", "would",
    "should", "could", "can", "cannot", "may", "might", "must", "shall",
    "is", "am", "it", "this", "that", "these", "those", "i", "you", "he",
    "she", "we", "they", "me", "him", "her", "us", "them", "my", "your",
    "his", "her", "its", "our", "their", "mine", "yours", "hers", "ours",
    "theirs", "myself", "yourself", "himself", "herself", "itself",
    "ourselves", "yourselves", "themselves" ]

def isAlphaCh (c : Char) : Bool :=
  ('a' ≤ c && c ≤ 'z') || ('A' ≤ c && c ≤ 'Z')

/-- Helper for `stripUrlsL`: when `skipping` is true the current
non-whitespace run is being discarded. -/
def stripUrlsAux : Bool → List Char → List Char
  | _, [] => []
  | true, c :: t =>
    if pyIsSpace c then c :: stripUrlsAux false t else stripUrlsAux true t
  | false, c :: t =>
    if startsWithL "http://".data (c :: t) ||
        startsWithL "https://".data (c :: t) then
      stripUrlsAux true t
    else c :: stripUrlsAux false t

/-- Remove every maximal non-whitespace run that starts with `http://`
or `https://`. -/
def stripUrlsL (l : List Char) : List Char :=
  stripUrlsAux false l

/-- Helper for `alphaTokens`: `acc` holds the reversed current run. -/
def alphaTokensAux : List Char → List Char → List (List Char)
  | acc, [] => (match acc with | [] => [] | _ :: _ => [acc.reverse])
  | acc, c :: t =>
    if isAlphaCh c then alphaTokensAux (c :: acc) t
    else
      (match acc with
        | [] => alphaTokensAux [] t
        | _ :: _ => acc.reverse :: alphaTokensAux [] t)

/-- Maximal alphabetic runs of a character list, in order. -/
def alphaTokens (l : List Char) : List (List Char) :=
  alphaTokensAux [] l

/-- Modelled from the spec: `ChatAnalyzer._extract_words` is called by
`get_word_frequency` but is defined nowhere in the repository's sources;
§4.5 of the specification describes the word-frequency tokenisation as
"strip URLs and emoji code points from content, lowercase, tokenize on
alphabetic runs of length ≥ 3". -/
def extract_words (content : String) : List String :=
  let cleaned := stripUrlsL (content.data.filter (fun c => !isEmojiChar c))
  ((alphaTokens (toLowerL cleaned)).filter (fun w => 3 ≤ w.length)).map
    String.mk

/-- One returned entry of `get_word_frequency`. -/
structure WordFreqEntry where
  word : String
  count : Nat
  frequency : ℚ
deriving DecidableEq

/-- The counted corpus: all extracted words of all text messages that
survive the call site's filter `len(word) > 2 and word.lower() not in
self.stop_words`.  The `Counter`'s multiset of updates is this list. -/
def wfCorpus (contents : List String) : List String :=
  contents.flatMap fun c =>
    (extract_words c).filter
      (fun w => 2 < w.length &&
        !(stop_words.contains (String.mk (toLowerL w.data))))

/-- `get_word_frequency` over the text-message contents of a chat:
count the corpus, take the top `limit` entries (stable descending by
count, ties in first-seen key order, as `Counter.most_common` sorts the
insertion-ordered items stably), and attach
`count / sum(word_counter.values())` (0 if the counter is empty). -/
def get_word_frequency (contents : List String) (limit : Nat) :
    List WordFreqEntry :=
  let allWords := wfCorpus contents
  let total := allWords.length
  let entries := (uniq allWords).map (fun w => (w, allWords.count w))
  let top := (sortDescBy (fun e => e.2) entries).take limit
  top.map fun e =>
    { word := e.1
      count := e.2
      frequency := if total = 0 then 0 else (e.2 : ℚ) / (total : ℚ) }

/-! ## Granularity validation
(`ChatAnalyzer.get_timeline_data` and
`ExtendedChatAnalyzer.get_activity_over_time`). -/

/-- Which `GROUP BY` statement `get_activity_over_time` builds. -/
inductive GroupByStmt where
  | daily
  | weekly
  | monthly
deriving DecidableEq

/-- The `date_format` dispatch at the top of `get_timeline_data`: an
unknown granularity raises
`ValueError("Granularity must be 'daily', 'weekly', or 'monthly'")`,
modelled as `Except.error` with that message. -/
def get_timeline_data_date_format (granularity : String) :
    Except String String :=
  if granularity = "daily" then Except.ok "%Y-%m-%d"
  else if granularity = "weekly" then Except.ok "%Y-W%U"
  else if granularity = "monthly" then Except.ok "%Y-%m"
  else Except.error
    "Granularity must be \x27daily\x27, \x27weekly\x27, or \x27monthly\x27"

/-- The `stmt` dispatch of `get_activity_over_time`: for a period outside
the three branches, `stmt` is never assigned and the subsequent
`self.session.execute(stmt)` raises `UnboundLocalError`, modelled as
`none`. -/
def get_activity_over_time_stmt (period : String) : Option GroupByStmt :=
  if period = "daily" then some GroupByStmt.daily
  else if period = "weekly" then some GroupByStmt.weekly
  else if period = "monthly" then some GroupByStmt.monthly
  else none

/-! ## Inversion lemmas for the parser -/

theorem tryPattern_inv (res : Option (List Char × List Char × List Char))
    (m : ParsedMessage) (h : tryPattern res = some m) :
    ∃ ds ts rest, res = some (ds, ts, rest) ∧
      (pyStrip rest).contains ':' = true ∧
      parse_timestamp (String.mk (ds ++ ' ' :: ts)) = some m.timestamp ∧
      (∀ sm ∈ system_messages,
        containsSubL sm.data (toLowerL m.content.data) = false) ∧
      m.char_count = m.content.data.length ∧
      m.word_count = (pySplitWS m.content.data).length := by
  match res with
  | none => exact absurd h (by simp [tryPattern])
  | some (ds, ts, rest) =>
    refine ⟨ds, ts, rest, rfl, ?_⟩
    simp only [tryPattern] at h
    by_cases hc : (pyStrip rest).contains ':' = true
    · rw [if_pos hc] at h
      refine ⟨hc, ?_⟩
      match hts : parse_timestamp (String.mk (ds ++ ' ' :: ts)) with
      | none =>
        rw [hts] at h
        exact absurd h (by simp)
      | some tsv =>
        rw [hts] at h
        simp only [] at h
        by_cases hsys : (system_messages.any fun sm => containsSubL sm.data
            (toLowerL (pyStrip (((pyStrip rest).dropWhile
              (fun c => c ≠ ':')).drop 1)))) = true
        · rw [if_pos hsys] at h
          exact absurd h (by simp)
        · rw [if_neg hsys] at h
          have hm := Option.some.inj h
          subst hm
          refine ⟨rfl, ?_, rfl, rfl⟩
          intro sm hsm
          have hfalse := Bool.eq_false_iff.mpr hsys
          rw [List.any_eq_false] at hfalse
          exact Bool.eq_false_iff.mpr (hfalse sm hsm)
    · rw [if_neg hc] at h
      exact absurd h (by simp)

theorem parse_message_line_inv (line : List Char) (m : ParsedMessage)
    (h : parse_message_line line = some m) :
    (∀ sm ∈ system_messages,
      containsSubL sm.data (toLowerL m.content.data) = false) ∧
    m.char_count = m.content.data.length ∧
    m.word_count = (pySplitWS m.content.data).length ∧
    ∃ k, k < 3 ∧ ∃ ds ts rest, datePatternMatch k line = some (ds, ts, rest) ∧
      (pyStrip rest).contains ':' = true ∧
      parse_timestamp (String.mk (ds ++ ' ' :: ts)) = some m.timestamp := by
  rw [parse_message_line] at h
  match h1 : tryPattern (matchP1 line) with
  | some m1 =>
    rw [h1] at h
    have hm := Option.some.inj h
    subst hm
    rcases tryPattern_inv _ _ h1 with ⟨ds, ts, rest, hres, hc, hts, hsys, hcc, hwc⟩
    exact ⟨hsys, hcc, hwc, 0, by omega, ds, ts, rest, hres, hc, hts⟩
  | none =>
    rw [h1] at h
    match h2 : tryPattern (matchP2 line) with
    | some m2 =>
      rw [h2] at h
      have hm := Option.some.inj h
      subst hm
      rcases tryPattern_inv _ _ h2 with ⟨ds, ts, rest, hres, hc, hts, hsys, hcc, hwc⟩
      exact ⟨hsys, hcc, hwc, 1, by omega, ds, ts, rest, hres, hc, hts⟩
    | none =>
      rw [h2] at h
      rcases tryPattern_inv _ _ h with ⟨ds, ts, rest, hres, hc, hts, hsys, hcc, hwc⟩
      exact ⟨hsys, hcc, hwc, 2, by omega, ds, ts, rest, hres, hc, hts⟩

theorem mem_foldl_parseStep (ls : List (List Char)) :
    ∀ (acc : List ParsedMessage × List String × List PyDateTime)
      (m : ParsedMessage), m ∈ (ls.foldl parseStep acc).1 →
      m ∈ acc.1 ∨ ∃ line, parse_message_line line = some m := by
  induction ls with
  | nil => intro acc m hm; exact Or.inl hm
  | cons l ls ih =>
    intro acc m hm
    rw [List.foldl_cons] at hm
    rcases ih (parseStep acc l) m hm with hin | hex
    · rw [parseStep] at hin
      by_cases he : (pyStrip l).isEmpty = true
      · rw [if_pos he] at hin
        exact Or.inl hin
      · rw [if_neg he] at hin
        match hp : parse_message_line (pyStrip l) with
        | none =>
          rw [hp] at hin
          exact Or.inl hin
        | some m2 =>
          rw [hp] at hin
          simp only [List.mem_append, List.mem_singleton] at hin
          rcases hin with hin | hin
          · exact Or.inl hin
          · subst hin
            exact Or.inr ⟨pyStrip l, hp⟩
    · exact Or.inr hex

theorem mem_parse_chat_messages (text fn : String) (m : ParsedMessage)
    (h : m ∈ (parse_chat text fn).messages) :
    ∃ line, parse_message_line line = some m := by
  rcases mem_foldl_parseStep (splitOnNl text.data) ([], [], []) m h with hin | hex
  · exact absurd hin (List.not_mem_nil m)
  · exact hex

theorem foldl_parseStep_dates (ls : List (List Char)) :
    ∀ acc : List ParsedMessage × List String × List PyDateTime,
      acc.2.2 = acc.1.map ParsedMessage.timestamp →
      (ls.foldl parseStep acc).2.2 =
        (ls.foldl parseStep acc).1.map ParsedMessage.timestamp := by
  induction ls with
  | nil => intro acc hacc; exact hacc
  | cons l ls ih =>
    intro acc hacc
    rw [List.foldl_cons]
    apply ih
    rw [parseStep]
    by_cases he : (pyStrip l).isEmpty = true
    · rw [if_pos he]; exact hacc
    · rw [if_neg he]
      match hp : parse_message_line (pyStrip l) with
      | none => exact hacc
      | some m2 => simp [hacc]

/-! ## Claim theorems -/

set_option maxRecDepth 8000

/-- The synthetic two-line transcript of the round-trip property. -/
def c1Input : String :=
  "[1/2/24, 10:00:00 AM] Alice: hello world\n[1/2/24, 10:05:00 AM] Bob: hi Alice 😀 http://example.com"

/-- C1: parsing the two-line transcript yields exactly 2 ParsedMessage
records, the participant set {Alice, Bob}, the second message has
has_emoji = true and has_link = true, and both messages have kind
`text`. -/
theorem claim_C1 :
    (parse_chat c1Input "chat.txt").messages.length = 2 ∧
    (∀ s : String, s ∈ (parse_chat c1Input "chat.txt").participants ↔
      (s = "Alice" ∨ s = "Bob")) ∧
    (parse_chat c1Input "chat.txt").messages.map ParsedMessage.message_type =
      ["text", "text"] ∧
    (parse_chat c1Input "chat.txt").messages.map ParsedMessage.has_emoji =
      [false, true] ∧
    (parse_chat c1Input "chat.txt").messages.map ParsedMessage.has_link =
      [false, true] := by
  have hp : (parse_chat c1Input "chat.txt").participants = ["Alice", "Bob"] :=
    by decide
  refine ⟨by decide, ?_, by decide, by decide, by decide⟩
  intro s
  rw [hp]
  simp

/-- C2: every message emitted by `parse_chat` has `char_count` equal to
the length of its content and `word_count` equal to the number of
whitespace-delimited tokens of its content. -/
theorem claim_C2 (text fn : String) (m : ParsedMessage)
    (h : m ∈ (parse_chat text fn).messages) :
    m.char_count = m.content.length ∧
    m.word_count = (pySplitWS m.content.data).length := by
  rcases mem_parse_chat_messages text fn m h with ⟨line, hline⟩
  rcases parse_message_line_inv line m hline with ⟨_, hcc, hwc, _⟩
  exact ⟨hcc, hwc⟩

/-- The first message of the round-trip transcript. -/
def c1Msg1 : ParsedMessage :=
  { timestamp := ⟨2024, 1, 2, 10, 0, 0⟩
    participant := "Alice"
    content := "hello world"
    message_type := "text"
    char_count := 11
    word_count := 2
    has_emoji := false
    has_link := false }

/-- Witness for C2 at the first message of the round-trip transcript. -/
theorem claim_C2_witness :
    c1Msg1.char_count = c1Msg1.content.length ∧
    c1Msg1.word_count = (pySplitWS c1Msg1.content.data).length :=
  claim_C2 c1Input "chat.txt" c1Msg1 (by decide)

/-- The record the parser emits for `[1/2/24, 10:00:00 AM] : hello`. -/
def c3Msg : ParsedMessage :=
  { timestamp := ⟨2024, 1, 2, 10, 0, 0⟩
    participant := ""
    content := "hello"
    message_type := "text"
    char_count := 5
    word_count := 1
    has_emoji := false
    has_link := false }

/-- C3 counterexample: the line `[1/2/24, 10:00:00 AM] : hello` produces
a ParsedMessage whose participant is the empty string, so the parser does
not require a non-empty participant name. -/
theorem claim_C3_counterexample :
    ∃ m : ParsedMessage,
      parse_message_line "[1/2/24, 10:00:00 AM] : hello".data = some m ∧
      m.participant = "" := by
  refine ⟨c3Msg, ?_, rfl⟩
  decide

/-- C3 (amended): a ParsedMessage is emitted only when some date pattern
matched with a parseable timestamp and a colon in the remainder (the
participant name and the body may be empty), and the emitted body's
lowercasing contains none of the stored system phrases (so the
end-to-end-encryption notice, stored with a capital letter, is never
excluded on its own). -/
theorem claim_C3 (line : List Char) (m : ParsedMessage)
    (h : parse_message_line line = some m) :
    (∀ sm ∈ system_messages,
      containsSubL sm.data (toLowerL m.content.data) = false) ∧
    ∃ k, k < 3 ∧ ∃ ds ts rest, datePatternMatch k line = some (ds, ts, rest) ∧
      (pyStrip rest).contains ':' = true ∧
      parse_timestamp (String.mk (ds ++ ' ' :: ts)) = some m.timestamp := by
  rcases parse_message_line_inv line m h with ⟨hsys, _, _, hk⟩
  exact ⟨hsys, hk⟩

/-- Witness for C3 at the plain Alice line. -/
theorem claim_C3_witness :
    (∀ sm ∈ system_messages,
      containsSubL sm.data (toLowerL ("hello world" : String).data) = false) ∧
    ∃ k, k < 3 ∧ ∃ ds ts rest,
      datePatternMatch k "[1/2/24, 10:00:00 AM] Alice: hello world".data =
        some (ds, ts, rest) ∧
      (pyStrip rest).contains ':' = true ∧
      parse_timestamp (String.mk (ds ++ ' ' :: ts)) =
        some (⟨2024, 1, 2, 10, 0, 0⟩ : PyDateTime) :=
  claim_C3 "[1/2/24, 10:00:00 AM] Alice: hello world".data
    { timestamp := ⟨2024, 1, 2, 10, 0, 0⟩, participant := "Alice",
      content := "hello world", message_type := "text", char_count := 11,
      word_count := 2, has_emoji := false, has_link := false }
    (by decide)

/-- C4: the end-to-end-encryption notice is classified as `text`, not
`system` — `_determine_message_type` compares the lowercased body against
a phrase stored with a capital letter, which can never match. -/
theorem claim_C4 :
    determine_message_type "Messages and calls are end-to-end encrypted" =
      "text" := by
  decide

/-- C6: both granularity dispatches surface a caller-visible error
exactly for granularities outside {daily, weekly, monthly}:
`get_timeline_data` raises its ValueError, and
`get_activity_over_time` leaves `stmt` unassigned (UnboundLocalError,
modelled as `none`). -/
theorem claim_C6 (g : String) :
    ((get_timeline_data_date_format g).isOk = false ↔
      (g ≠ "daily" ∧ g ≠ "weekly" ∧ g ≠ "monthly")) ∧
    (get_activity_over_time_stmt g = none ↔
      (g ≠ "daily" ∧ g ≠ "weekly" ∧ g ≠ "monthly")) := by
  unfold get_timeline_data_date_format get_activity_over_time_stmt
  by_cases h1 : g = "daily"
  · simp [h1, Except.isOk, Except.toBool]
  · by_cases h2 : g = "weekly"
    · simp [h2, Except.isOk, Except.toBool]
    · by_cases h3 : g = "monthly"
      · simp [h3, Except.isOk, Except.toBool]
      · simp [h1, h2, h3, Except.isOk, Except.toBool]

theorem foldl_parseStep_start (text fn : String) :
    (parse_chat text fn).date_range_start =
      pyMinD ((parse_chat text fn).messages.map ParsedMessage.timestamp) ∧
    (parse_chat text fn).date_range_end =
      pyMaxD ((parse_chat text fn).messages.map ParsedMessage.timestamp) := by
  have hdr := foldl_parseStep_dates (splitOnNl text.data) ([], [], []) rfl
  constructor
  · show pyMinD ((splitOnNl text.data).foldl parseStep ([], [], [])).2.2 = _
    rw [hdr]
    rfl
  · show pyMaxD ((splitOnNl text.data).foldl parseStep ([], [], [])).2.2 = _
    rw [hdr]
    rfl

/-- C7 (amended): the recorded date range is the Python `min` / `max` of
the timestamps of the *emitted* messages (`None` when none is emitted) —
system messages are excluded before the range accumulator is appended to,
so the range always equals the range of the stored message sequence. -/
theorem claim_C7 (text fn : String) :
    (parse_chat text fn).date_range_start =
      pyMinD ((parse_chat text fn).messages.map ParsedMessage.timestamp) ∧
    (parse_chat text fn).date_range_end =
      pyMaxD ((parse_chat text fn).messages.map ParsedMessage.timestamp) ∧
    ((parse_chat text fn).messages = [] →
      (parse_chat text fn).date_range_start = none ∧
      (parse_chat text fn).date_range_end = none) := by
  rcases foldl_parseStep_start text fn with ⟨hs, he⟩
  refine ⟨hs, he, fun hnil => ?_⟩
  rw [hs, he, hnil]
  exact ⟨rfl, rfl⟩

/-- Witness for C7 on a transcript whose only line fails to parse. -/
theorem claim_C7_witness :
    (parse_chat "no message here" "f.txt").date_range_start =
      pyMinD ((parse_chat "no message here" "f.txt").messages.map
        ParsedMessage.timestamp) ∧
    (parse_chat "no message here" "f.txt").date_range_start = none ∧
    (parse_chat "no message here" "f.txt").date_range_end = none :=
  ⟨(claim_C7 "no message here" "f.txt").1,
    (claim_C7 "no message here" "f.txt").2.2 (by decide)⟩

/-- The transcript whose first line is a system message with an earlier
valid timestamp. -/
def c7Input : String :=
  "[1/2/24, 9:00:00 AM] X: Bob left\n[1/2/24, 10:00:00 AM] Alice: hi"

/-- Follows the spec's words, for comparison with `parse_chat` (C7): the
timestamps "encountered" during parsing — for each line, the timestamp
resolved by the first date pattern that matches with a colon-bearing
remainder and a parseable timestamp, recorded *before* the
system-message exclusion that the spec places after range computation. -/
def encounteredTimestampOfLine (line : List Char) : Option PyDateTime :=
  (List.range 3).findSome? fun k =>
    match datePatternMatch k line with
    | none => none
    | some (ds, ts, rest) =>
      if (pyStrip rest).contains ':' then
        parse_timestamp (String.mk (ds ++ ' ' :: ts))
      else none

/-- Follows the spec's words (C7): all encountered timestamps of a
transcript. -/
def specEncounteredTimestamps (text : String) : List PyDateTime :=
  (splitOnNl text.data).filterMap fun raw =>
    if (pyStrip raw).isEmpty then none
    else encounteredTimestampOfLine (pyStrip raw)

/-- C7 counterexample: on `c7Input` the recorded range start is 10:00
(the excluded system line's 9:00 timestamp is never appended to the range
accumulator), while the minimum of the spec's "encountered" timestamps is
9:00 — so the recorded range is not the min/max of encountered
timestamps, and exclusion does not happen after range computation. -/
theorem claim_C7_counterexample :
    (parse_chat c7Input "f.txt").date_range_start =
      some ⟨2024, 1, 2, 10, 0, 0⟩ ∧
    pyMinD (specEncounteredTimestamps c7Input) =
      some ⟨2024, 1, 2, 9, 0, 0⟩ ∧
    (parse_chat c7Input "f.txt").date_range_start ≠
      pyMinD (specEncounteredTimestamps c7Input) := by
  refine ⟨by decide, by decide, ?_⟩
  intro h
  rw [show (parse_chat c7Input "f.txt").date_range_start =
    some ⟨2024, 1, 2, 10, 0, 0⟩ from by decide,
    show pyMinD (specEncounteredTimestamps c7Input) =
    some ⟨2024, 1, 2, 9, 0, 0⟩ from by decide] at h
  exact absurd (Option.some.inj h) (by decide)

/-- C5: a transcript with fewer than 2 messages yields the empty result;
response-time samples are exactly the adjacent pairs with a different
sender and 0 < delta < 3600 (credited to the second sender); long pauses
are exactly the adjacent pairs with delta > 14400; the returned pause
list is the descending-by-duration sort truncated to 10; and the second
sender of each long pause (after the first message's sender) is counted
as a conversation starter. -/
theorem claim_C5 (msgs : List AMsg) :
    (msgs.length < 2 →
      get_interaction_metrics msgs = emptyInteractionMetrics) ∧
    (get_interaction_metrics msgs).response_samples =
      responseSamplesSpec msgs ∧
    (get_interaction_metrics msgs).pauses = pausesSpec msgs ∧
    (get_interaction_metrics msgs).longest_pauses =
      (sortDescBy Pause.duration_hours (pausesSpec msgs)).take 10 ∧
    (∀ m0 rest, msgs = m0 :: rest → 2 ≤ msgs.length →
      (get_interaction_metrics msgs).starter_events =
        m0.sender :: (pausesSpec msgs).map Pause.restarted_by) := by
  rcases msgs with _ | ⟨m, rest⟩
  · exact ⟨fun _ => rfl, rfl, rfl, rfl, fun m0 r h => absurd h (by simp)⟩
  · rcases rest with _ | ⟨m2, rest2⟩
    · refine ⟨fun _ => rfl, rfl, rfl, rfl, fun m0 r _ h2 => absurd h2 ?_⟩
      simp
    · have hge : ¬ ((m :: m2 :: rest2).length < 2) := by
        simp only [List.length_cons]
        omega
      have hloop := imLoop_eq_spec m (m2 :: rest2)
      have hvals : get_interaction_metrics (m :: m2 :: rest2) =
          { response_samples := responseSamplesSpec (m :: m2 :: rest2)
            starter_events := m.sender ::
              (pausesSpec (m :: m2 :: rest2)).map Pause.restarted_by
            pauses := pausesSpec (m :: m2 :: rest2)
            conversation_starters := sortDescBy (fun e => e.2)
              ((uniq (m.sender :: (pausesSpec (m :: m2 :: rest2)).map
                  Pause.restarted_by)).map
                (fun s => (s, (m.sender :: (pausesSpec (m :: m2 :: rest2)).map
                  Pause.restarted_by).count s)))
            longest_pauses := (sortDescBy Pause.duration_hours
              (pausesSpec (m :: m2 :: rest2))).take 10 } := by
        rw [get_interaction_metrics, if_neg hge]
        simp only [hloop]
      refine ⟨fun hcon => absurd hcon hge, ?_, ?_, ?_, ?_⟩
      · rw [hvals]
      · rw [hvals]
      · rw [hvals]
      · intro m0 r heq _
        have hm0 : m0 = m := by
          injection heq with h1 _
          exact h1.symm
        rw [hvals, hm0]

/-- Witness for C5 at a concrete three-message conversation containing
one fast reply and one long pause. -/
theorem claim_C5_witness :
    get_interaction_metrics [⟨0, "a"⟩] = emptyInteractionMetrics ∧
    (get_interaction_metrics
        [⟨0, "a"⟩, ⟨100, "b"⟩, ⟨20000, "a"⟩]).response_samples =
      responseSamplesSpec [⟨0, "a"⟩, ⟨100, "b"⟩, ⟨20000, "a"⟩] ∧
    (get_interaction_metrics
        [⟨0, "a"⟩, ⟨100, "b"⟩, ⟨20000, "a"⟩]).starter_events =
      (⟨0, "a"⟩ : AMsg).sender ::
        (pausesSpec [⟨0, "a"⟩, ⟨100, "b"⟩, ⟨20000, "a"⟩]).map
          Pause.restarted_by :=
  ⟨(claim_C5 [⟨0, "a"⟩]).1 (by decide),
    (claim_C5 [⟨0, "a"⟩, ⟨100, "b"⟩, ⟨20000, "a"⟩]).2.1,
    (claim_C5 [⟨0, "a"⟩, ⟨100, "b"⟩, ⟨20000, "a"⟩]).2.2.2.2
      ⟨0, "a"⟩ [⟨100, "b"⟩, ⟨20000, "a"⟩] rfl (by decide)⟩

/-- C10: with at least 2 messages, the conversation-starter counts sum to
1 plus the number of recorded long pauses (before truncation). -/
theorem claim_C10 (msgs : List AMsg) (h : 2 ≤ msgs.length) :
    ((get_interaction_metrics msgs).conversation_starters.map
      Prod.snd).sum = 1 + (get_interaction_metrics msgs).pauses.length := by
  rcases msgs with _ | ⟨m, rest⟩
  · simp at h
  · have hge : ¬ ((m :: rest).length < 2) := by
      simp only [List.length_cons] at h ⊢
      omega
    rw [get_interaction_metrics, if_neg hge]
    simp only []
    set starters := m.sender :: (imLoop m rest).2.1 with hst
    have hperm := sortDescBy_perm (fun e : String × Nat => e.2)
      ((uniq starters).map (fun s => (s, starters.count s)))
    have hsum := (hperm.map Prod.snd).sum_eq
    rw [hsum, List.map_map]
    have hcomp : (Prod.snd ∘ fun s => (s, starters.count s)) =
        fun s => starters.count s := rfl
    rw [hcomp, sum_uniq_count, hst]
    rw [imLoop_eq_spec m rest]
    simp only [List.length_cons, List.length_map]
    omega

/-- Witness for C10 at the three-message conversation with one pause. -/
theorem claim_C10_witness :
    ((get_interaction_metrics
        [⟨0, "a"⟩, ⟨100, "b"⟩, ⟨20000, "a"⟩]).conversation_starters.map
      Prod.snd).sum =
      1 + (get_interaction_metrics
        [⟨0, "a"⟩, ⟨100, "b"⟩, ⟨20000, "a"⟩]).pauses.length :=
  claim_C10 [⟨0, "a"⟩, ⟨100, "b"⟩, ⟨20000, "a"⟩] (by decide)

/-- C8: the heatmap is a 7×24 matrix whose cell `[d][h]` counts the
messages with day-of-week `d` (Sunday = 0, SQLite `%w`) and hour `h`;
the cells sum to the total message count, `max_count` is the maximum
cell value, and the day labels start at Sunday. -/
theorem claim_C8 (msgs : List AMsg) :
    (get_hourly_activity_heatmap msgs).data.length = 7 ∧
    (get_hourly_activity_heatmap msgs).data.map List.length =
      List.replicate 7 24 ∧
    (∀ d h, getCell (get_hourly_activity_heatmap msgs).data d h =
      hmCount msgs (d, h)) ∧
    ((get_hourly_activity_heatmap msgs).data.map List.sum).sum =
      msgs.length ∧
    (get_hourly_activity_heatmap msgs).max_count =
      matrixMax (get_hourly_activity_heatmap msgs).data ∧
    (get_hourly_activity_heatmap msgs).days =
      ["Sunday", "Monday", "Tuesday", "Wednesday", "Thursday", "Friday",
        "Saturday"] := by
  have hdata : (get_hourly_activity_heatmap msgs).data =
      (heatmapGroups msgs).foldl
        (fun M kc => setCell M kc.1.1 kc.1.2 kc.2) zeroMatrix := rfl
  have hlen : (get_hourly_activity_heatmap msgs).data.length = 7 := by
    rw [hdata, fill_length, zeroMatrix_length]
  have hrow : ∀ d, d < 7 →
      ((get_hourly_activity_heatmap msgs).data.getD d []).length = 24 := by
    intro d hd
    rw [hdata, fill_row_length, zeroMatrix_row_length d hd]
  have hshape : (get_hourly_activity_heatmap msgs).data.map List.length =
      List.replicate 7 24 := by
    rw [List.eq_replicate_iff]
    refine ⟨by rw [List.length_map, hlen], ?_⟩
    intro b hb
    rcases List.mem_map.mp hb with ⟨row, hrowmem, hblen⟩
    rcases List.mem_iff_get.mp hrowmem with ⟨⟨d, hd⟩, hget⟩
    have hd7 : d < 7 := by rw [hlen] at hd; exact hd
    have : row = (get_hourly_activity_heatmap msgs).data.getD d [] := by
      rw [getD_eq_get _ _ _ hd, hget]
    rw [← hblen, this, hrow d hd7]
  have hsum : ((get_hourly_activity_heatmap msgs).data.map List.sum).sum =
      msgs.length := by
    rw [mapSum_eq_sum_rows, hlen]
    have hinner : ∀ d ∈ Finset.range 7,
        ((get_hourly_activity_heatmap msgs).data.getD d []).sum =
          ∑ h in Finset.range 24, hmCount msgs (d, h) := by
      intro d hd
      have hd7 : d < 7 := Finset.mem_range.mp hd
      rw [sum_eq_sum_getD, hrow d hd7]
      refine Finset.sum_congr rfl (fun h _ => ?_)
      exact heatmap_cell msgs d h
    rw [Finset.sum_congr rfl hinner, sum_hmCount]
  have hmaxv : (get_hourly_activity_heatmap msgs).max_count =
      ((heatmapGroups msgs).map Prod.snd).foldl max 0 := by
    show (heatmapGroups msgs).foldl (fun acc kc => max acc kc.2) 0 = _
    exact foldl_max_eq_map_snd (heatmapGroups msgs) 0
  have hmax : (get_hourly_activity_heatmap msgs).max_count =
      matrixMax (get_hourly_activity_heatmap msgs).data := by
    rw [hmaxv]
    apply Nat.le_antisymm
    · apply foldl_max_le _ _ (Nat.zero_le _)
      intro b hb
      rcases List.mem_map.mp hb with ⟨g, hgmem, hgsnd⟩
      rcases List.mem_map.mp hgmem with ⟨k, hkmem, hkg⟩
      rcases k with ⟨k1, k2⟩
      have hkey : (k1, k2) ∈ msgs.map hmKey := (mem_uniq (k1, k2) _).mp hkmem
      rcases List.mem_map.mp hkey with ⟨m, _, hmk⟩
      have hd7 : k1 < 7 := by
        have := dowOf_lt m.ts
        have hm1 : (hmKey m).1 = k1 := by rw [hmk]
        rw [← hm1]
        exact this
      have hb' : b = hmCount msgs (k1, k2) := by
        rw [← hgsnd, ← hkg]
        rfl
      rw [hb', ← heatmap_cell msgs k1 k2]
      apply getCell_le_matrixMax
      rw [hlen]
      exact hd7
    · apply foldl_max_le _ _ (Nat.zero_le _)
      intro rm hrm
      rcases List.mem_map.mp hrm with ⟨row, hrowmem, hrmval⟩
      rw [← hrmval]
      apply foldl_max_le _ _ (Nat.zero_le _)
      intro v hv
      rcases List.mem_iff_get.mp hrowmem with ⟨⟨d, hd⟩, hget⟩
      have hd7 : d < 7 := by rw [hlen] at hd; exact hd
      rcases List.mem_iff_get.mp hv with ⟨⟨h, hh⟩, hgeth⟩
      have hrowd : row = (get_hourly_activity_heatmap msgs).data.getD d [] := by
        rw [getD_eq_get _ _ _ hd, hget]
      have hvcell : v = getCell (get_hourly_activity_heatmap msgs).data d h := by
        rw [getCell, ← hrowd, getD_eq_get _ _ _ hh, hgeth]
      rw [hvcell, heatmap_cell msgs d h]
      by_cases hmem : (d, h) ∈ uniq (msgs.map hmKey)
      · have hgm : ((d, h), hmCount msgs (d, h)) ∈ heatmapGroups msgs := by
          unfold heatmapGroups hmCount
          exact List.mem_map_of_mem _ hmem
        exact le_foldl_max_of_mem _ _
          (by simpa using List.mem_map_of_mem Prod.snd hgm)
      · rw [mem_uniq] at hmem
        rw [hmCount_eq_zero_of_not_mem hmem]
        exact Nat.zero_le _
  exact ⟨hlen, hshape, fun d h => heatmap_cell msgs d h, hsum, hmax, rfl⟩

theorem sum_map_div {α : Type} (l : List α) (f : α → ℚ) (c : ℚ) :
    (l.map (fun x => f x / c)).sum = (l.map f).sum / c := by
  induction l with
  | nil => simp
  | cons x xs ih =>
    rw [List.map_cons, List.sum_cons, List.map_cons, List.sum_cons, ih,
      add_div]

/-- The record constructor applied to one counter item inside
`get_word_frequency`. -/
def wfEntryOf (total : Nat) (e : String × Nat) : WordFreqEntry :=
  { word := e.1
    count := e.2
    frequency := if total = 0 then 0 else (e.2 : ℚ) / (total : ℚ) }

theorem get_word_frequency_eq (contents : List String) (limit : Nat) :
    get_word_frequency contents limit =
      ((sortDescBy (fun e : String × Nat => e.2)
        ((uniq (wfCorpus contents)).map
          (fun w => (w, (wfCorpus contents).count w)))).take limit).map
        (wfEntryOf (wfCorpus contents).length) := rfl

/-- C9: the counts of the returned top-`limit` entries sum to at most the
number of counted words of the corpus; each returned entry's frequency is
its count divided by that corpus total; and over the full vocabulary the
relative frequencies sum to at most 1. -/
theorem claim_C9 (contents : List String) (limit : Nat) :
    ((get_word_frequency contents limit).map WordFreqEntry.count).sum ≤
      (wfCorpus contents).length ∧
    (∀ e ∈ get_word_frequency contents limit,
      e.frequency =
        (e.count : ℚ) / ((wfCorpus contents).length : ℚ)) ∧
    ((uniq (wfCorpus contents)).map
      (fun w => ((wfCorpus contents).count w : ℚ) /
        ((wfCorpus contents).length : ℚ))).sum ≤ 1 := by
  have hperm := sortDescBy_perm (fun e : String × Nat => e.2)
    ((uniq (wfCorpus contents)).map
      (fun w => (w, (wfCorpus contents).count w)))
  have hsortsum : ((sortDescBy (fun e : String × Nat => e.2)
      ((uniq (wfCorpus contents)).map
        (fun w => (w, (wfCorpus contents).count w)))).map Prod.snd).sum =
      (wfCorpus contents).length := by
    rw [(hperm.map Prod.snd).sum_eq, List.map_map]
    have hcomp : (Prod.snd ∘ fun w => (w, (wfCorpus contents).count w)) =
        fun w => (wfCorpus contents).count w := rfl
    rw [hcomp, sum_uniq_count]
  refine ⟨?_, ?_, ?_⟩
  · rw [get_word_frequency_eq, List.map_map]
    have hcomp2 : (WordFreqEntry.count ∘
        wfEntryOf (wfCorpus contents).length) = Prod.snd := rfl
    rw [hcomp2, List.map_take]
    have h1 := List.sum_take_add_sum_drop
      (((sortDescBy (fun e : String × Nat => e.2)
        ((uniq (wfCorpus contents)).map
          (fun w => (w, (wfCorpus contents).count w)))).map Prod.snd)) limit
    omega
  · intro e he
    rw [get_word_frequency_eq] at he
    rcases List.mem_map.mp he with ⟨p, hp, hpe⟩
    have hps : p ∈ sortDescBy (fun e : String × Nat => e.2)
        ((uniq (wfCorpus contents)).map
          (fun w => (w, (wfCorpus contents).count w))) :=
      List.take_subset limit _ hp
    have hpent : p ∈ (uniq (wfCorpus contents)).map
        (fun w => (w, (wfCorpus contents).count w)) := hperm.mem_iff.mp hps
    rcases List.mem_map.mp hpent with ⟨w, hw, hwp⟩
    have hwc : w ∈ wfCorpus contents := (mem_uniq w _).mp hw
    have hne : (wfCorpus contents).length ≠ 0 := by
      intro hcon
      rw [List.length_eq_zero] at hcon
      rw [hcon] at hwc
      exact List.not_mem_nil w hwc
    rw [← hpe]
    show (if (wfCorpus contents).length = 0 then 0
      else (p.2 : ℚ) / ((wfCorpus contents).length : ℚ)) = _
    rw [if_neg hne]
    rfl
  · by_cases hz : (wfCorpus contents).length = 0
    · have hnil : wfCorpus contents = [] := List.length_eq_zero.mp hz
      rw [hnil]
      show ((uniq ([] : List String)).map _).sum ≤ 1
      norm_num [uniq, uniqAux]
    · rw [sum_map_div]
      have hcast : ((uniq (wfCorpus contents)).map
          (fun w => ((wfCorpus contents).count w : ℚ))).sum =
          (((uniq (wfCorpus contents)).map
            (fun w => (wfCorpus contents).count w)).sum : ℚ) := by
        rw [Nat.cast_list_sum, List.map_map]
        rfl
      rw [hcast, sum_uniq_count,
        div_self (by exact_mod_cast hz :
          ((wfCorpus contents).length : ℚ) ≠ 0)]

/-- The first returned entry for the corpus of `"hello world hello"`
(its frequency field is the unevaluated expression the code stores; the
corpus length is 3, so it denotes 2/3). -/
def c9Entry : WordFreqEntry :=
  wfEntryOf (wfCorpus ["hello world hello"]).length ("hello", 2)

/-- Witness for C9 at a one-message corpus. -/
theorem claim_C9_witness :
    c9Entry.frequency = (c9Entry.count : ℚ) /
      ((wfCorpus ["hello world hello"]).length : ℚ) :=
  (claim_C9 ["hello world hello"] 5).2.1 c9Entry
    (by
      rw [get_word_frequency_eq]
      exact List.mem_map.mpr ⟨("hello", 2), by decide, rfl⟩)
